import Mathlib

/-!
Verification of the Lux `precompiles` DEX core (Transmuter, Alchemist, PoolManager)
against its natural-language specification.

The Transmuter is embedded directly from `src/dex/transmuter.go`.  Monetary
quantities are Go `*big.Int` values, embedded as `ℤ`; Go's `big.Int.Div` is
Euclidean division, which is `Int.ediv`, i.e. `/` on `ℤ` in this toolchain.
State kept per synthetic token (Go maps keyed by token, resp. by the
blake3 hash of token‖owner) is embedded per token, with owners drawn from `ℕ`
and the in-memory maps embedded as association lists.
-/

namespace Lux

/-- Association-list lookup, first binding wins (Go map lookup). -/
def alookup {α : Type} : List (ℕ × α) → ℕ → Option α
  | [], _ => none
  | p :: t, k => if p.1 = k then some p.2 else alookup t k

/-- Association-list update: replace the first binding of `k`, or append (Go map store). -/
def aupsert {α : Type} (k : ℕ) (v : α) : List (ℕ × α) → List (ℕ × α)
  | [] => [(k, v)]
  | p :: t => if p.1 = k then (k, v) :: t else p :: aupsert k v t

theorem alookup_aupsert_self {α : Type} (k : ℕ) (v : α) (l : List (ℕ × α)) :
    alookup (aupsert k v l) k = some v := by
  induction l with
  | nil => simp [aupsert, alookup]
  | cons p t ih =>
    by_cases h : p.1 = k
    · simp [aupsert, alookup, h]
    · simp [aupsert, alookup, h, ih]

theorem alookup_aupsert_ne {α : Type} {k k' : ℕ} (h : k' ≠ k) (v : α) (l : List (ℕ × α)) :
    alookup (aupsert k v l) k' = alookup l k' := by
  have hk : ¬ (k = k') := fun hh => h hh.symm
  induction l with
  | nil => simp [aupsert, alookup, hk]
  | cons p t ih =>
    by_cases hp : p.1 = k
    · rw [aupsert, if_pos hp, alookup, alookup, if_neg hk, if_neg (hp ▸ hk)]
    · rw [aupsert, if_neg hp, alookup, alookup]
      by_cases hp' : p.1 = k'
      · rw [if_pos hp', if_pos hp']
      · rw [if_neg hp', if_neg hp', ih]

theorem mem_aupsert {α : Type} {k : ℕ} {v : α} {l : List (ℕ × α)} {p : ℕ × α}
    (hp : p ∈ aupsert k v l) : p = (k, v) ∨ p ∈ l := by
  induction l with
  | nil => simpa [aupsert] using hp
  | cons q t ih =>
    by_cases hq : q.1 = k
    · rw [aupsert, if_pos hq] at hp
      rcases List.mem_cons.mp hp with h | h
      · exact Or.inl h
      · exact Or.inr (List.mem_cons_of_mem _ h)
    · rw [aupsert, if_neg hq] at hp
      rcases List.mem_cons.mp hp with h | h
      · exact Or.inr (h ▸ List.mem_cons_self _ _)
      · rcases ih h with h' | h'
        · exact Or.inl h'
        · exact Or.inr (List.mem_cons_of_mem _ h')

theorem alookup_mem {α : Type} {l : List (ℕ × α)} {k : ℕ} {v : α}
    (h : alookup l k = some v) : (k, v) ∈ l := by
  induction l with
  | nil => simp [alookup] at h
  | cons p t ih =>
    by_cases hp : p.1 = k
    · rw [alookup, if_pos hp] at h
      have hv : p.2 = v := Option.some.inj h
      have : p = (k, v) := by
        cases p
        simp only [Prod.mk.injEq]
        exact ⟨hp, hv⟩
      exact this ▸ List.mem_cons_self _ _
    · rw [alookup, if_neg hp] at h
      exact List.mem_cons_of_mem _ (ih h)

/-- Sum of a function of the values of an association list. -/
def asum {α : Type} (f : α → ℤ) (l : List (ℕ × α)) : ℤ :=
  (l.map (fun p => f p.2)).sum

theorem asum_aupsert_of_lookup {α : Type} (f : α → ℤ) {l : List (ℕ × α)} {k : ℕ} {v₀ : α}
    (h : alookup l k = some v₀) (v : α) :
    asum f (aupsert k v l) = asum f l - f v₀ + f v := by
  induction l with
  | nil => simp [alookup] at h
  | cons p t ih =>
    by_cases hp : p.1 = k
    · rw [alookup, if_pos hp] at h
      rw [aupsert]
      simp only [if_pos hp, asum, List.map_cons, List.sum_cons, Option.some.inj h]
      ring
    · rw [alookup, if_neg hp] at h
      rw [aupsert]
      simp only [if_neg hp, asum, List.map_cons, List.sum_cons]
      have := ih h
      simp only [asum] at this
      rw [this]
      ring

theorem asum_aupsert_of_none {α : Type} (f : α → ℤ) {l : List (ℕ × α)} {k : ℕ}
    (h : alookup l k = none) (v : α) :
    asum f (aupsert k v l) = asum f l + f v := by
  induction l with
  | nil => simp [aupsert, asum]
  | cons p t ih =>
    by_cases hp : p.1 = k
    · rw [alookup, if_pos hp] at h
      exact absurd h (by simp)
    · rw [alookup, if_neg hp] at h
      rw [aupsert]
      simp only [if_neg hp, asum, List.map_cons, List.sum_cons]
      have := ih h
      simp only [asum] at this
      rw [this]
      ring

/-! ## Transmuter data model (`src/dex/transmuter.go`) -/

/-- Q96 fixed-point unit: the Transmuter's exchange-rate index starts at `Q96`
("1:1 initial rate") and rate deltas are scaled by it. -/
def Q96 : ℤ := 2 ^ 96

/-- `TransmuterStake` (transmuter.go:46): a user's stake.  `Owner` and
`SyntheticToken` are carried by the association-list key. -/
structure TransmuterStake where
  stakedAmount : ℤ
  unclaimedAmount : ℤ
  lastUpdateIndex : ℤ
  deriving Repr, DecidableEq

/-- `TransmuterState` (per synthetic token): exchange buffer, total staked,
monotonic Q96 exchange-rate index. -/
structure TransmuterState where
  exchangeBuffer : ℤ
  totalStaked : ℤ
  exchangeRate : ℤ
  deriving Repr, DecidableEq

/-- A transmuter for one registered synthetic token: its `TransmuterState`
together with all stakes on that token (Go: `Transmuter.states`/`Transmuter.stakes`,
restricted to the token). -/
structure TransmuterSys where
  tstate : TransmuterState
  stakes : List (ℕ × TransmuterStake)
  deriving Repr, DecidableEq

/-- `Transmuter.updateStakeUnclaimed` (transmuter.go:377): reconcile a stake's
unclaimed amount against the exchange-rate index. -/
def updateStakeUnclaimed (st : TransmuterStake) (s : TransmuterState) : TransmuterStake :=
  if st.stakedAmount = 0 then st
  else
    let rateDiff := s.exchangeRate - st.lastUpdateIndex
    if rateDiff ≤ 0 then st
    else
      let newUnclaimed := st.stakedAmount * rateDiff / Q96
      { stakedAmount := if st.stakedAmount ≤ newUnclaimed then 0 else st.stakedAmount - newUnclaimed
        unclaimedAmount := st.unclaimedAmount + newUnclaimed
        lastUpdateIndex := s.exchangeRate }

/-- `Transmuter.Stake` (transmuter.go:110); `none` is the error return
(`ErrInvalidPositionSize`), on which the Go code has not yet mutated state. -/
def stakeOp (sys : TransmuterSys) (owner : ℕ) (amount : ℤ) : Option TransmuterSys :=
  if amount ≤ 0 then none
  else
    let st0 := (alookup sys.stakes owner).getD
      ⟨0, 0, sys.tstate.exchangeRate⟩
    let st1 := updateStakeUnclaimed st0 sys.tstate
    some { tstate := { sys.tstate with totalStaked := sys.tstate.totalStaked + amount }
           stakes := aupsert owner
             { st1 with stakedAmount := st1.stakedAmount + amount
                        lastUpdateIndex := sys.tstate.exchangeRate } sys.stakes }

/-- `Transmuter.Unstake` (transmuter.go:163): reconcile, clamp the amount to the
available stake, remove it. -/
def unstakeOp (sys : TransmuterSys) (owner : ℕ) (amount : ℤ) : Option TransmuterSys :=
  match alookup sys.stakes owner with
  | none => none
  | some st0 =>
    if st0.stakedAmount = 0 then none
    else
      let st1 := updateStakeUnclaimed st0 sys.tstate
      let amt := if st1.stakedAmount < amount then st1.stakedAmount else amount
      some { tstate := { sys.tstate with totalStaked := sys.tstate.totalStaked - amt }
             stakes := aupsert owner
               { st1 with stakedAmount := st1.stakedAmount - amt } sys.stakes }

/-- `Transmuter.Claim` (transmuter.go:209): reconcile, pay out the unclaimed
amount capped by the exchange buffer.  On the zero-unclaimed early return the
reconciled stake still persists in the in-memory map (the Go code mutates the
cached stake in place). -/
def claimOp (sys : TransmuterSys) (owner : ℕ) : Option (ℤ × TransmuterSys) :=
  match alookup sys.stakes owner with
  | none => none
  | some st0 =>
    let st1 := updateStakeUnclaimed st0 sys.tstate
    if st1.unclaimedAmount = 0 then
      some (0, { sys with stakes := aupsert owner st1 sys.stakes })
    else
      let c := if sys.tstate.exchangeBuffer < st1.unclaimedAmount
               then sys.tstate.exchangeBuffer else st1.unclaimedAmount
      some (c, { tstate := { sys.tstate with
                   exchangeBuffer := sys.tstate.exchangeBuffer - c }
                 stakes := aupsert owner
                   { st1 with unclaimedAmount := st1.unclaimedAmount - c } sys.stakes })

/-- `Transmuter.Deposit` (transmuter.go:257) for a registered token: add to the
buffer and, when there are stakers, advance the exchange-rate index.  Always
succeeds; a non-positive amount returns before mutating anything. -/
def depositOp (sys : TransmuterSys) (amount : ℤ) : TransmuterSys :=
  if amount ≤ 0 then sys
  else
    { tstate :=
        { exchangeBuffer := sys.tstate.exchangeBuffer + amount
          totalStaked := sys.tstate.totalStaked
          exchangeRate :=
            if 0 < sys.tstate.totalStaked
            then sys.tstate.exchangeRate + amount * Q96 / sys.tstate.totalStaked
            else sys.tstate.exchangeRate }
      stakes := sys.stakes }

/-- The uncapped claimable amount of one stake: pending `UnclaimedAmount` plus
the accrued-but-unreconciled conversion, exactly as computed inside
`Transmuter.GetClaimable` (transmuter.go:339-349) before the buffer cap. -/
def claimableOf (s : TransmuterState) (st : TransmuterStake) : ℤ :=
  st.unclaimedAmount +
    (if 0 < st.stakedAmount then
       (if 0 < s.exchangeRate - st.lastUpdateIndex
        then st.stakedAmount * (s.exchangeRate - st.lastUpdateIndex) / Q96
        else 0)
     else 0)

/-- `Transmuter.GetClaimable` (transmuter.go:319): uncapped claimable, capped at
the exchange buffer; 0 for an absent stake. -/
def GetClaimable (sys : TransmuterSys) (owner : ℕ) : ℤ :=
  match alookup sys.stakes owner with
  | none => 0
  | some st =>
    let u := claimableOf sys.tstate st
    if sys.tstate.exchangeBuffer < u then sys.tstate.exchangeBuffer else u

/-- The freshly initialized per-token transmuter state
(`Transmuter.InitializeTransmuter`, transmuter.go:78): empty buffer, nothing
staked, exchange rate `Q96`. -/
def initTransmuterSys : TransmuterSys :=
  { tstate := { exchangeBuffer := 0, totalStaked := 0, exchangeRate := Q96 }
    stakes := [] }

/-- One public Transmuter mutation on a registered token. -/
inductive TOp where
  | stake (owner : ℕ) (amount : ℤ)
  | unstake (owner : ℕ) (amount : ℤ)
  | claim (owner : ℕ)
  | deposit (amount : ℤ)

/-- Run one operation; an error return (`none`) leaves the state unchanged,
as in the Go code. -/
def applyTOp (sys : TransmuterSys) : TOp → TransmuterSys
  | .stake o a => (stakeOp sys o a).getD sys
  | .unstake o a => (unstakeOp sys o a).getD sys
  | .claim o =>
    match claimOp sys o with
    | some (_, s) => s
    | none => sys
  | .deposit a => depositOp sys a

/-- Run a sequence of Transmuter operations from a given state. -/
def runTOps (sys : TransmuterSys) (ops : List TOp) : TransmuterSys :=
  ops.foldl applyTOp sys

/-- Multi-token registry view of `Transmuter.states`, for the
registration-dependent behaviour of `Deposit`: `none` is
`ErrSyntheticNotRegistered`. -/
def depositTok (reg : List (ℕ × TransmuterSys)) (tok : ℕ) (amount : ℤ) :
    Option (List (ℕ × TransmuterSys)) :=
  match alookup reg tok with
  | none => none
  | some _ => some (reg.map (fun p => if p.1 = tok then (p.1, depositOp p.2 amount) else p))

/-! ## Transmuter invariant quantities -/

/-- Sum of all staked amounts of a stake map. -/
def sumStakedL (l : List (ℕ × TransmuterStake)) : ℤ :=
  asum (fun st => st.stakedAmount) l

/-- Sum of the uncapped claimable amounts of a stake map. -/
def sumClaimableL (s : TransmuterState) (l : List (ℕ × TransmuterStake)) : ℤ :=
  asum (claimableOf s) l

/-- Potential of one stake, in Q96 units: pending unclaimed plus the exact
(pre-floor) accrued-but-unreconciled conversion. -/
def stakePotential (rate : ℤ) (st : TransmuterStake) : ℤ :=
  st.unclaimedAmount * Q96 + st.stakedAmount * (rate - st.lastUpdateIndex)

/-- Total potential of a stake map, in Q96 units. -/
def potentialL (rate : ℤ) (l : List (ℕ × TransmuterStake)) : ℤ :=
  asum (stakePotential rate) l

/-- Inductive invariant of the per-token transmuter. -/
structure TransmuterInv (sys : TransmuterSys) : Prop where
  buf_nonneg : 0 ≤ sys.tstate.exchangeBuffer
  stake_ok : ∀ p ∈ sys.stakes, 0 ≤ p.2.stakedAmount ∧ 0 ≤ p.2.unclaimedAmount ∧
      p.2.lastUpdateIndex ≤ sys.tstate.exchangeRate
  total_ge : sumStakedL sys.stakes ≤ sys.tstate.totalStaked
  buf_potential : potentialL sys.tstate.exchangeRate sys.stakes ≤ sys.tstate.exchangeBuffer * Q96

/-- Concrete two-staker scenario from `TestTransmuter_MultipleStakers`
(synthetics_test.go:494): owner 1 stakes 100e18, owner 2 stakes 200e18,
then 150e18 underlying is deposited. -/
def twoStakerSys : TransmuterSys :=
  applyTOp (applyTOp initTransmuterSys (.stake 1 (100 * 10 ^ 18))) (.stake 2 (200 * 10 ^ 18))

/-- The two-staker scenario after the joint 150e18 `Deposit`. -/
def depositedSys : TransmuterSys :=
  applyTOp twoStakerSys (.deposit (150 * 10 ^ 18))

/-! ## Alchemist (modelled from the spec)

The Alchemist implementation is not among the provided sources; only its test
file `src/dex/synthetics_test.go` is.  The definitions below are modelled from
spec §4.2. -/

/-- `MaxLTV = 90` (spec §4.2: "90 of 100 precision units"). -/
def MaxLTV : ℤ := 90

/-- `LTVPrecision = 100` (spec §4.2). -/
def LTVPrecision : ℤ := 100

/-- Alchemist `Account` per (owner, yieldToken) (spec §3): collateral, debt,
last-harvest block. -/
structure Account where
  collateral : ℤ
  debt : ℤ
  lastHarvestBlock : ℤ
  deriving Repr, DecidableEq

/-- Errors of `Alchemist.Mint` relevant to the spec. -/
inductive MintError where
  | maxLTVExceeded
  | debtCeilingExceeded
  deriving Repr, DecidableEq

/-- Modelled from the spec: `Alchemist` harvest prelude (spec §4.2 "Harvest"):
`elapsed = currentBlock − LastHarvestBlock`,
`accrued = Collateral·YieldPerBlock·elapsed/1e18`, applies `min(accrued, Debt)`
to reduce the debt and advances the harvest block. -/
def harvestAcc (a : Account) (yieldPerBlock currentBlock : ℤ) : Account :=
  { collateral := a.collateral
    debt := a.debt - min (a.collateral * yieldPerBlock * (currentBlock - a.lastHarvestBlock) / 10 ^ 18) a.debt
    lastHarvestBlock := currentBlock }

/-- Modelled from the spec: `Alchemist.Mint` (spec §4.2): harvests, rejects with
`ErrMaxLTVExceeded` when the post-mint loan-to-value ratio
`(Debt+amount)·LTVPrecision/Collateral` exceeds `MaxLTV` (the comparison is the
exact rational one, i.e. `(Debt+amount)·LTVPrecision > MaxLTV·Collateral`, as
forced by spec §8's example and `TestAlchemist_Mint_MaxLTV`), then checks the
debt ceiling, else increases the debt.  Rejections leave the account and the
synthetic's total debt unchanged (spec §7: validate-then-apply, no partial
mutation on rejection). -/
def mintOp (a : Account) (totalDebt debtCeiling yieldPerBlock currentBlock amount : ℤ) :
    (Account × ℤ) × Option MintError :=
  let h := harvestAcc a yieldPerBlock currentBlock
  if MaxLTV * h.collateral < (h.debt + amount) * LTVPrecision then
    ((a, totalDebt), some .maxLTVExceeded)
  else if debtCeiling < totalDebt + amount then
    ((a, totalDebt), some .debtCeilingExceeded)
  else (({ h with debt := h.debt + amount }, totalDebt + amount), none)

/-! ## PoolManager lock protocol (modelled from the spec)

The PoolManager implementation is not among the provided sources; only its test
file is.  The definitions below are modelled from spec §4.1: a lock frame owns a
per-currency signed delta map, operations inside the frame book deltas and
mutate pool state, and the frame releases only if every currency's delta is
exactly zero, otherwise the whole call aborts with no persisted mutation. -/

/-- Abstract state visible to one lock frame: the persisted pool store (a
key-value abstraction of all pool state) plus the frame's per-currency deltas. -/
structure LockFrame where
  store : List (ℕ × ℤ)
  deltas : List (ℕ × ℤ)

/-- A PoolManager operation inside a lock frame, abstracted to its effect:
booking a per-currency delta (swap/flash/settle legs) and/or writing pool
state. -/
inductive PMOp where
  | adjust (currency : ℕ) (amount : ℤ)
  | write (key : ℕ) (value : ℤ)

/-- Modelled from the spec: accumulate a signed per-currency delta into the
frame's delta map (`PoolManager.updateDelta`). -/
def updateDelta (deltas : List (ℕ × ℤ)) (c : ℕ) (a : ℤ) : List (ℕ × ℤ) :=
  aupsert c ((alookup deltas c).getD 0 + a) deltas

/-- Apply one in-lock operation to the frame. -/
def applyPMOp (f : LockFrame) : PMOp → LockFrame
  | .adjust c a => { f with deltas := updateDelta f.deltas c a }
  | .write k v => { f with store := aupsert k v f.store }

/-- Run a sequence of in-lock operations. -/
def runPMOps (f : LockFrame) (ops : List PMOp) : LockFrame :=
  ops.foldl applyPMOp f

/-- Modelled from the spec: `PoolManager.Lock(caller, op)` for one frame —
execute the operations against a fresh delta map; release (commit the store)
only when every remaining per-currency delta is zero, else abort. -/
def lockRun (store : List (ℕ × ℤ)) (ops : List PMOp) : Option (List (ℕ × ℤ)) :=
  let f := runPMOps { store := store, deltas := [] } ops
  if f.deltas.all (fun p => p.2 == 0) then some f.store else none

/-- The persisted store after a lock call: on abort the caller's original
store survives untouched (spec §4.1: transactional, all-or-nothing). -/
def lockFinal (store : List (ℕ × ℤ)) (ops : List PMOp) : List (ℕ × ℤ) :=
  (lockRun store ops).getD store

/-- Specification-side net delta of a currency over an operation sequence,
computed directly from the operations. -/
def opDelta (ops : List PMOp) (c : ℕ) : ℤ :=
  (ops.map (fun o => match o with
    | .adjust c' a => if c' = c then a else 0
    | .write _ _ => 0)).sum

/-- Net value of a currency in a delta map. -/
def netDelta (deltas : List (ℕ × ℤ)) (c : ℕ) : ℤ :=
  (alookup deltas c).getD 0

/-! ## Byte-level encodings -/

/-- Fuelled minimal big-endian byte encoding of a natural number. -/
def bytesBEAux : ℕ → ℕ → List ℕ
  | 0, _ => []
  | fuel + 1, n => if n = 0 then [] else bytesBEAux fuel (n / 256) ++ [n % 256]

/-- Minimal big-endian byte encoding (Go `big.Int.Bytes`): empty for 0, no
leading zero byte otherwise. -/
def bytesBE (n : ℕ) : List ℕ :=
  bytesBEAux n n

/-- Big-endian byte decoding (Go `big.Int.SetBytes`). -/
def fromBytesBE (l : List ℕ) : ℕ :=
  l.foldl (fun acc b => acc * 256 + b) 0

/-- Fixed-width big-endian byte encoding of `v` in `n` bytes. -/
def beBytesFixed : ℕ → ℕ → List ℕ
  | 0, _ => []
  | n + 1, v => v / 256 ^ n :: beBytesFixed n (v % 256 ^ n)

/-- Go `copy(data[:16], b)` semantics: left-align `b` into a 16-byte buffer,
truncating to the first 16 bytes, zero-filling the rest. -/
def copy16 (l : List ℕ) : List ℕ :=
  l.take 16 ++ List.replicate (16 - l.length) 0

/-! ## PoolKey serialization (modelled from the spec)

The PoolKey implementation is not among the provided sources; only its test
file is.  Spec §3/§6: a `PoolKey` is (currency0, currency1, fee, tickSpacing,
hooks) with a deterministic fixed 66-byte encoding laid out as
20+20+3+2+20+1 bytes; the final byte is not further described and is modelled
as a constant 0 tag. -/

/-- `PoolKey` (spec §3), with 20-byte currency/hooks addresses, a 3-byte fee
tier and a 2-byte tick spacing embedded as bounded naturals. -/
structure PoolKey where
  currency0 : ℕ
  currency1 : ℕ
  fee : ℕ
  tickSpacing : ℕ
  hooks : ℕ
  deriving Repr, DecidableEq

/-- Modelled from the spec: `PoolKey.ToBytes`, the fixed 66-byte
(20+20+3+2+20+1) encoding. -/
def PoolKey.toBytes (k : PoolKey) : List ℕ :=
  beBytesFixed 20 k.currency0 ++ (beBytesFixed 20 k.currency1 ++
    (beBytesFixed 3 k.fee ++ (beBytesFixed 2 k.tickSpacing ++
      (beBytesFixed 20 k.hooks ++ [0]))))

/-- Modelled from the spec: `PoolKeyFromBytes`, decoding the 66-byte layout by
sequential parsing (bytes 0..19, 20..39, 40..42, 43..44, 45..64); `none` on a
length mismatch. -/
def PoolKeyFromBytes (data : List ℕ) : Option PoolKey :=
  if data.length = 66 then
    some { currency0 := fromBytesBE (data.take 20)
           currency1 := fromBytesBE ((data.drop 20).take 20)
           fee := fromBytesBE (((data.drop 20).drop 20).take 3)
           tickSpacing := fromBytesBE ((((data.drop 20).drop 20).drop 3).take 2)
           hooks := fromBytesBE (((((data.drop 20).drop 20).drop 3).drop 2).take 20) }
  else none

/-! ## Transmuter stake persistence (`saveStake`/`getStake`) -/

/-- `Transmuter.saveStake` (transmuter.go:429) storage payload: a 32-byte slot
with `StakedAmount.Bytes()` copied left-aligned into bytes 0..15 and
`UnclaimedAmount.Bytes()` copied left-aligned into bytes 16..31. -/
def saveStakeData (st : TransmuterStake) : List ℕ :=
  copy16 (bytesBE st.stakedAmount.toNat) ++ copy16 (bytesBE st.unclaimedAmount.toNat)

/-- `Transmuter.getStake` (transmuter.go:408) cold-load path: the all-zero slot
means no stake; otherwise the two 16-byte halves are decoded big-endian and
`LastUpdateIndex` is reset to `Q96`. -/
def loadStakeData (data : List ℕ) : Option TransmuterStake :=
  if data = List.replicate 32 0 then none
  else some { stakedAmount := (fromBytesBE (data.take 16) : ℤ)
              unclaimedAmount := (fromBytesBE (data.drop 16) : ℤ)
              lastUpdateIndex := Q96 }

/-- Store a stake under its storage key (`stateDB.SetState`). -/
def saveStakeDB (db : List (ℕ × List ℕ)) (key : ℕ) (st : TransmuterStake) :
    List (ℕ × List ℕ) :=
  aupsert key (saveStakeData st) db

/-- Cold-load a stake (`stateDB.GetState` of an absent slot is the zero hash). -/
def getStakeDB (db : List (ℕ × List ℕ)) (key : ℕ) : Option TransmuterStake :=
  loadStakeData ((alookup db key).getD (List.replicate 32 0))

/-! # Theorems -/

set_option maxRecDepth 100000

theorem Q96_pos : (0 : ℤ) < Q96 := by
  norm_num [Q96]

theorem ediv_mul_le_self {a b : ℤ} (hb : 0 < b) : a / b * b ≤ a := by
  have h1 := Int.ediv_add_emod a b
  have h2 := Int.emod_nonneg a (ne_of_gt hb)
  have h3 : a / b * b = b * (a / b) := mul_comm _ _
  linarith

/-- Branch-explicit form of `updateStakeUnclaimed`. -/
theorem usu_eq (st : TransmuterStake) (s : TransmuterState) :
    updateStakeUnclaimed st s =
      if st.stakedAmount = 0 then st
      else if s.exchangeRate - st.lastUpdateIndex ≤ 0 then st
      else
        { stakedAmount :=
            if st.stakedAmount ≤ st.stakedAmount * (s.exchangeRate - st.lastUpdateIndex) / Q96
            then 0
            else st.stakedAmount - st.stakedAmount * (s.exchangeRate - st.lastUpdateIndex) / Q96
          unclaimedAmount :=
            st.unclaimedAmount + st.stakedAmount * (s.exchangeRate - st.lastUpdateIndex) / Q96
          lastUpdateIndex := s.exchangeRate } :=
  rfl

theorem usu_staked_nonneg (st : TransmuterStake) (s : TransmuterState)
    (hs : 0 ≤ st.stakedAmount) : 0 ≤ (updateStakeUnclaimed st s).stakedAmount := by
  rw [usu_eq]
  split_ifs with h0 hd hle
  · exact hs
  · exact hs
  · exact le_refl 0
  · dsimp only
    omega

theorem usu_staked_le (st : TransmuterStake) (s : TransmuterState)
    (hs : 0 ≤ st.stakedAmount) :
    (updateStakeUnclaimed st s).stakedAmount ≤ st.stakedAmount := by
  rw [usu_eq]
  split_ifs with h0 hd hle
  · exact le_refl _
  · exact le_refl _
  · exact hs
  · dsimp only
    have hc : 0 ≤ st.stakedAmount * (s.exchangeRate - st.lastUpdateIndex) / Q96 :=
      Int.ediv_nonneg (mul_nonneg hs (by omega)) (le_of_lt Q96_pos)
    omega

theorem usu_unclaimed_nonneg (st : TransmuterStake) (s : TransmuterState)
    (hs : 0 ≤ st.stakedAmount) (hu : 0 ≤ st.unclaimedAmount) :
    0 ≤ (updateStakeUnclaimed st s).unclaimedAmount := by
  rw [usu_eq]
  split_ifs with h0 hd hle
  · exact hu
  · exact hu
  all_goals
    dsimp only
    have hc : 0 ≤ st.stakedAmount * (s.exchangeRate - st.lastUpdateIndex) / Q96 :=
      Int.ediv_nonneg (mul_nonneg hs (by omega)) (le_of_lt Q96_pos)
    omega

theorem usu_idx_le (st : TransmuterStake) (s : TransmuterState)
    (hi : st.lastUpdateIndex ≤ s.exchangeRate) :
    (updateStakeUnclaimed st s).lastUpdateIndex ≤ s.exchangeRate := by
  rw [usu_eq]
  split_ifs with h0 hd hle
  · exact hi
  · exact hi
  all_goals exact le_refl _

theorem usu_idx_eq (st : TransmuterStake) (s : TransmuterState)
    (h0 : st.stakedAmount ≠ 0) (hi : st.lastUpdateIndex ≤ s.exchangeRate) :
    (updateStakeUnclaimed st s).lastUpdateIndex = s.exchangeRate := by
  rw [usu_eq, if_neg h0]
  split_ifs with hd hle
  · omega
  all_goals rfl

/-- Reconciliation never increases a stake's Q96-unit potential. -/
theorem usu_potential_le (st : TransmuterStake) (s : TransmuterState)
    (hs : 0 ≤ st.stakedAmount) :
    stakePotential s.exchangeRate (updateStakeUnclaimed st s)
      ≤ stakePotential s.exchangeRate st := by
  rw [usu_eq]
  split_ifs with h0 hd hle
  · exact le_refl _
  · exact le_refl _
  · unfold stakePotential
    dsimp only
    have hc := ediv_mul_le_self (a := st.stakedAmount * (s.exchangeRate - st.lastUpdateIndex))
      Q96_pos
    have hz : (0 : ℤ) * (s.exchangeRate - s.exchangeRate) = 0 := by ring
    nlinarith [hc]
  · unfold stakePotential
    dsimp only
    have hc := ediv_mul_le_self (a := st.stakedAmount * (s.exchangeRate - st.lastUpdateIndex))
      Q96_pos
    nlinarith [hc]

/-- C3 (amended): the reconciliation step on a stake with positive principal and
snapshot `i ≤ r` adds `c = s·(r−i)/Q96` to `UnclaimedAmount`, sets
`StakedAmount` to `max 0 (s − c)` — the decrease is clamped at the whole stake
when `c ≥ s` — and snapshots the index to `r`. -/
theorem C3_reconciliation (st : TransmuterStake) (s : TransmuterState)
    (hs : 0 < st.stakedAmount) (hi : st.lastUpdateIndex ≤ s.exchangeRate) :
    (updateStakeUnclaimed st s).unclaimedAmount
      = st.unclaimedAmount + st.stakedAmount * (s.exchangeRate - st.lastUpdateIndex) / Q96
    ∧ (updateStakeUnclaimed st s).stakedAmount
      = max 0 (st.stakedAmount
          - st.stakedAmount * (s.exchangeRate - st.lastUpdateIndex) / Q96)
    ∧ (updateStakeUnclaimed st s).lastUpdateIndex = s.exchangeRate := by
  have h0 : ¬ st.stakedAmount = 0 := by omega
  rw [usu_eq, if_neg h0]
  split_ifs with hd hle
  · have hd0 : s.exchangeRate - st.lastUpdateIndex = 0 := by omega
    rw [hd0]
    simp only [mul_zero, Int.zero_ediv]
    refine ⟨by ring, by omega, by omega⟩
  all_goals
    dsimp only
    have hc : 0 ≤ st.stakedAmount * (s.exchangeRate - st.lastUpdateIndex) / Q96 :=
      Int.ediv_nonneg (mul_nonneg (by omega) (by omega)) (le_of_lt Q96_pos)
    exact ⟨rfl, by omega, rfl⟩

/-- C3 counterexample: at `StakedAmount = 1`, `UnclaimedAmount = 0`, snapshot
`i = 0` and `ExchangeRate r = 2·Q96`, the converted quantity is `c = 2`, yet
the code clamps `StakedAmount` to `0` instead of decreasing it by `c` (which
would give `-1`). -/
theorem C3_counterexample :
    ¬ ((updateStakeUnclaimed ⟨1, 0, 0⟩ ⟨0, 1, 2 * Q96⟩).stakedAmount
        = 1 - 1 * (2 * Q96 - 0) / Q96) := by
  decide

theorem usu_zero (st : TransmuterStake) (s : TransmuterState)
    (h : st.stakedAmount = 0) : updateStakeUnclaimed st s = st := by
  rw [usu_eq, if_pos h]

theorem asum_mul_right {α : Type} (f : α → ℤ) (l : List (ℕ × α)) (c : ℤ) :
    asum f l * c = asum (fun v => f v * c) l := by
  induction l with
  | nil => simp [asum]
  | cons p t ih =>
    simp only [asum, List.map_cons, List.sum_cons] at *
    rw [add_mul, ih]

theorem asum_le_asum {α : Type} {f g : α → ℤ} {l : List (ℕ × α)}
    (h : ∀ p ∈ l, f p.2 ≤ g p.2) : asum f l ≤ asum g l :=
  List.sum_le_sum h

/-- One capped-or-not claimable, scaled by Q96, is below the stake's potential. -/
theorem claimableOf_mul_le (s : TransmuterState) (st : TransmuterStake)
    (hs : 0 ≤ st.stakedAmount) (hi : st.lastUpdateIndex ≤ s.exchangeRate) :
    claimableOf s st * Q96 ≤ stakePotential s.exchangeRate st := by
  unfold claimableOf stakePotential
  split_ifs with h1 h2
  · have hc := ediv_mul_le_self
      (a := st.stakedAmount * (s.exchangeRate - st.lastUpdateIndex)) Q96_pos
    nlinarith [hc]
  · have hd : s.exchangeRate - st.lastUpdateIndex = 0 := by omega
    rw [hd, mul_zero]
    ring_nf
    exact le_refl _
  · have hz : st.stakedAmount = 0 := by omega
    rw [hz, zero_mul]
    ring_nf
    exact le_refl _

theorem sumClaimable_mul_le_potential (s : TransmuterState)
    (l : List (ℕ × TransmuterStake))
    (hok : ∀ p ∈ l, 0 ≤ p.2.stakedAmount ∧ 0 ≤ p.2.unclaimedAmount ∧
      p.2.lastUpdateIndex ≤ s.exchangeRate) :
    sumClaimableL s l * Q96 ≤ potentialL s.exchangeRate l := by
  unfold sumClaimableL potentialL
  rw [asum_mul_right]
  exact asum_le_asum (fun p hp =>
    claimableOf_mul_le s p.2 (hok p hp).1 (hok p hp).2.2)

theorem potentialL_shift (rate d : ℤ) (l : List (ℕ × TransmuterStake)) :
    potentialL (rate + d) l = potentialL rate l + sumStakedL l * d := by
  have hel : ∀ st : TransmuterStake,
      stakePotential (rate + d) st = stakePotential rate st + st.stakedAmount * d := by
    intro st
    unfold stakePotential
    ring
  induction l with
  | nil => simp [potentialL, sumStakedL, asum]
  | cons p t ih =>
    simp only [potentialL, sumStakedL, asum, List.map_cons, List.sum_cons] at *
    rw [hel, ih]
    ring

theorem inv_init : TransmuterInv initTransmuterSys := by
  constructor
  · exact le_refl 0
  · intro p hp
    simp [initTransmuterSys] at hp
  · simp [initTransmuterSys, sumStakedL, asum]
  · simp [initTransmuterSys, potentialL, asum]

theorem inv_depositOp (sys : TransmuterSys) (a : ℤ) (h : TransmuterInv sys) :
    TransmuterInv (depositOp sys a) := by
  rw [depositOp]
  split_ifs with ha hT
  · exact h
  · have hD : 0 < a := by omega
    have hdelta : 0 ≤ a * Q96 / sys.tstate.totalStaked :=
      Int.ediv_nonneg (mul_nonneg (by omega) (le_of_lt Q96_pos)) (le_of_lt hT)
    constructor
    · dsimp only
      linarith [h.buf_nonneg]
    · intro p hp
      dsimp only at hp ⊢
      obtain ⟨h1, h2, h3⟩ := h.stake_ok p hp
      exact ⟨h1, h2, by linarith⟩
    · dsimp only
      exact h.total_ge
    · dsimp only
      rw [potentialL_shift]
      have hmul : sumStakedL sys.stakes * (a * Q96 / sys.tstate.totalStaked)
          ≤ sys.tstate.totalStaked * (a * Q96 / sys.tstate.totalStaked) :=
        mul_le_mul_of_nonneg_right h.total_ge hdelta
      have hTd : (a * Q96 / sys.tstate.totalStaked) * sys.tstate.totalStaked ≤ a * Q96 :=
        ediv_mul_le_self hT
      have hBQ := h.buf_potential
      nlinarith [hmul, hTd, hBQ]
  · have hD : 0 < a := by omega
    constructor
    · dsimp only
      linarith [h.buf_nonneg]
    · intro p hp
      dsimp only at hp ⊢
      exact h.stake_ok p hp
    · dsimp only
      exact h.total_ge
    · dsimp only
      have hBQ := h.buf_potential
      nlinarith [hBQ, Q96_pos]

theorem inv_stakeOp (sys : TransmuterSys) (o : ℕ) (a : ℤ) (h : TransmuterInv sys) :
    TransmuterInv ((stakeOp sys o a).getD sys) := by
  rw [stakeOp]
  split_ifs with ha
  · exact h
  cases hl : alookup sys.stakes o with
  | none =>
    simp only [Option.getD_some, Option.getD_none]
    rw [usu_zero _ _ rfl]
    constructor
    · exact h.buf_nonneg
    · intro p hp
      dsimp only at hp
      rcases mem_aupsert hp with hp' | hp'
      · rw [hp']
        refine ⟨by dsimp only; omega, by dsimp only; omega, by dsimp only; exact le_refl _⟩
      · exact h.stake_ok p hp'
    · dsimp only
      unfold sumStakedL
      rw [asum_aupsert_of_none _ hl]
      have := h.total_ge
      unfold sumStakedL at this
      dsimp only
      omega
    · dsimp only
      unfold potentialL
      rw [asum_aupsert_of_none _ hl]
      have hterm : stakePotential sys.tstate.exchangeRate
          ⟨0 + a, (0 : ℤ), sys.tstate.exchangeRate⟩ = 0 := by
        unfold stakePotential
        dsimp only
        rw [sub_self, mul_zero, zero_mul, add_zero]
      rw [hterm]
      have := h.buf_potential
      unfold potentialL at this
      omega
  | some v =>
    simp only [Option.getD_some]
    obtain ⟨hv1, hv2, hv3⟩ := h.stake_ok (o, v) (alookup_mem hl)
    have hs1 : 0 ≤ (updateStakeUnclaimed v sys.tstate).stakedAmount :=
      usu_staked_nonneg v sys.tstate hv1
    have hs1le : (updateStakeUnclaimed v sys.tstate).stakedAmount ≤ v.stakedAmount :=
      usu_staked_le v sys.tstate hv1
    have hu1 : 0 ≤ (updateStakeUnclaimed v sys.tstate).unclaimedAmount :=
      usu_unclaimed_nonneg v sys.tstate hv1 hv2
    have hi1 : (updateStakeUnclaimed v sys.tstate).lastUpdateIndex ≤ sys.tstate.exchangeRate :=
      usu_idx_le v sys.tstate hv3
    have hpot : stakePotential sys.tstate.exchangeRate (updateStakeUnclaimed v sys.tstate)
        ≤ stakePotential sys.tstate.exchangeRate v :=
      usu_potential_le v sys.tstate hv1
    constructor
    · exact h.buf_nonneg
    · intro p hp
      dsimp only at hp
      rcases mem_aupsert hp with hp' | hp'
      · rw [hp']
        refine ⟨by dsimp only; omega, by dsimp only; omega, by dsimp only; exact le_refl _⟩
      · exact h.stake_ok p hp'
    · dsimp only
      unfold sumStakedL
      rw [asum_aupsert_of_lookup _ hl]
      have := h.total_ge
      unfold sumStakedL at this
      dsimp only
      omega
    · dsimp only
      unfold potentialL
      rw [asum_aupsert_of_lookup _ hl]
      have hterm : stakePotential sys.tstate.exchangeRate
          ⟨(updateStakeUnclaimed v sys.tstate).stakedAmount + a,
            (updateStakeUnclaimed v sys.tstate).unclaimedAmount,
            sys.tstate.exchangeRate⟩
          = (updateStakeUnclaimed v sys.tstate).unclaimedAmount * Q96 := by
        unfold stakePotential
        dsimp only
        rw [sub_self, mul_zero, add_zero]
      have hb := h.buf_potential
      unfold potentialL at hb
      have haccr : 0 ≤ (updateStakeUnclaimed v sys.tstate).stakedAmount *
          (sys.tstate.exchangeRate - (updateStakeUnclaimed v sys.tstate).lastUpdateIndex) :=
        mul_nonneg hs1 (by omega)
      have hexp : stakePotential sys.tstate.exchangeRate (updateStakeUnclaimed v sys.tstate)
          = (updateStakeUnclaimed v sys.tstate).unclaimedAmount * Q96
            + (updateStakeUnclaimed v sys.tstate).stakedAmount *
              (sys.tstate.exchangeRate - (updateStakeUnclaimed v sys.tstate).lastUpdateIndex) :=
        rfl
      linarith [hterm, hb, haccr, hexp, hpot]

theorem unstakeOp_eq_of_lookup {sys : TransmuterSys} {o : ℕ} {st : TransmuterStake}
    (hl : alookup sys.stakes o = some st) (a : ℤ) :
    unstakeOp sys o a =
      (if st.stakedAmount = 0 then none else
        some { tstate := { sys.tstate with totalStaked := sys.tstate.totalStaked -
                 (if (updateStakeUnclaimed st sys.tstate).stakedAmount < a
                  then (updateStakeUnclaimed st sys.tstate).stakedAmount else a) }
               stakes := aupsert o
                 { updateStakeUnclaimed st sys.tstate with stakedAmount :=
                     (updateStakeUnclaimed st sys.tstate).stakedAmount -
                       (if (updateStakeUnclaimed st sys.tstate).stakedAmount < a
                        then (updateStakeUnclaimed st sys.tstate).stakedAmount else a) }
                 sys.stakes }) := by
  unfold unstakeOp
  rw [hl]

/-- C5: for an owner with a nonzero stake, `Unstake` clamps the requested
amount to the reconciled staked amount: afterwards the stake's `StakedAmount`
is `max 0 (s₁ − amount)` (with `s₁` the post-reconciliation staked amount) and
`TotalStaked` drops by exactly the clamped amount actually removed. -/
theorem C5_unstake_clamp (sys : TransmuterSys) (o : ℕ) (a : ℤ) (st : TransmuterStake)
    (hl : alookup sys.stakes o = some st) (hs : st.stakedAmount ≠ 0) :
    unstakeOp sys o a = some
      { tstate := { sys.tstate with totalStaked := sys.tstate.totalStaked
            - ((updateStakeUnclaimed st sys.tstate).stakedAmount
               - max 0 ((updateStakeUnclaimed st sys.tstate).stakedAmount - a)) }
        stakes := aupsert o
          { updateStakeUnclaimed st sys.tstate with
              stakedAmount := max 0 ((updateStakeUnclaimed st sys.tstate).stakedAmount - a) }
          sys.stakes } := by
  rw [unstakeOp_eq_of_lookup hl a, if_neg hs]
  rw [show (if (updateStakeUnclaimed st sys.tstate).stakedAmount < a
           then (updateStakeUnclaimed st sys.tstate).stakedAmount else a)
        = (updateStakeUnclaimed st sys.tstate).stakedAmount
          - max 0 ((updateStakeUnclaimed st sys.tstate).stakedAmount - a) from by omega]
  rw [sub_sub_cancel]

theorem C5_witness :
    unstakeOp twoStakerSys 1 (150 * 10 ^ 18) =
      some { tstate := { exchangeBuffer := 0, totalStaked := 200 * 10 ^ 18
                         exchangeRate := Q96 }
             stakes := [(1, ⟨0, 0, Q96⟩), (2, ⟨200 * 10 ^ 18, 0, Q96⟩)] } := by
  rw [C5_unstake_clamp twoStakerSys 1 (150 * 10 ^ 18) ⟨100 * 10 ^ 18, 0, Q96⟩
    (by decide) (by decide)]
  decide

theorem claimOp_eq_of_lookup {sys : TransmuterSys} {o : ℕ} {st : TransmuterStake}
    (hl : alookup sys.stakes o = some st) :
    claimOp sys o =
      (if (updateStakeUnclaimed st sys.tstate).unclaimedAmount = 0 then
        some (0, { sys with stakes := aupsert o (updateStakeUnclaimed st sys.tstate) sys.stakes })
      else
        some (if sys.tstate.exchangeBuffer < (updateStakeUnclaimed st sys.tstate).unclaimedAmount
              then sys.tstate.exchangeBuffer
              else (updateStakeUnclaimed st sys.tstate).unclaimedAmount,
          { tstate := { sys.tstate with exchangeBuffer := sys.tstate.exchangeBuffer -
              (if sys.tstate.exchangeBuffer < (updateStakeUnclaimed st sys.tstate).unclaimedAmount
               then sys.tstate.exchangeBuffer
               else (updateStakeUnclaimed st sys.tstate).unclaimedAmount) }
            stakes := aupsert o
              { updateStakeUnclaimed st sys.tstate with unclaimedAmount :=
                  (updateStakeUnclaimed st sys.tstate).unclaimedAmount -
                    (if sys.tstate.exchangeBuffer <
                         (updateStakeUnclaimed st sys.tstate).unclaimedAmount
                     then sys.tstate.exchangeBuffer
                     else (updateStakeUnclaimed st sys.tstate).unclaimedAmount) }
              sys.stakes })) := by
  unfold claimOp
  rw [hl]

/-- C4: for an owner with an existing stake, `Claim` pays out exactly
`min(UnclaimedAmount, ExchangeBuffer)` computed after reconciliation,
decrements both the stake's `UnclaimedAmount` and the `ExchangeBuffer` by that
amount, and any remainder beyond the buffer stays pending in the stake. -/
theorem C4_claim_semantics (sys : TransmuterSys) (o : ℕ) (st : TransmuterStake)
    (hl : alookup sys.stakes o = some st)
    (hs : 0 ≤ st.stakedAmount) (hu : 0 ≤ st.unclaimedAmount)
    (hb : 0 ≤ sys.tstate.exchangeBuffer) :
    claimOp sys o = some
      (min (updateStakeUnclaimed st sys.tstate).unclaimedAmount sys.tstate.exchangeBuffer,
       { tstate := { sys.tstate with exchangeBuffer :=
            (sys.tstate.exchangeBuffer
              - min (updateStakeUnclaimed st sys.tstate).unclaimedAmount
                  sys.tstate.exchangeBuffer) }
         stakes := aupsert o
           { updateStakeUnclaimed st sys.tstate with unclaimedAmount :=
               ((updateStakeUnclaimed st sys.tstate).unclaimedAmount
                 - min (updateStakeUnclaimed st sys.tstate).unclaimedAmount
                     sys.tstate.exchangeBuffer) }
           sys.stakes }) := by
  have hu1 : 0 ≤ (updateStakeUnclaimed st sys.tstate).unclaimedAmount :=
    usu_unclaimed_nonneg st sys.tstate hs hu
  rw [claimOp_eq_of_lookup hl]
  split_ifs with h0 hc
  · rw [show min (updateStakeUnclaimed st sys.tstate).unclaimedAmount
        sys.tstate.exchangeBuffer = 0 from by omega, sub_zero, sub_zero]
  · rw [show min (updateStakeUnclaimed st sys.tstate).unclaimedAmount
        sys.tstate.exchangeBuffer = sys.tstate.exchangeBuffer from by omega]
  · rw [show min (updateStakeUnclaimed st sys.tstate).unclaimedAmount
          sys.tstate.exchangeBuffer
        = (updateStakeUnclaimed st sys.tstate).unclaimedAmount from by omega]

theorem C4_witness :
    claimOp depositedSys 1 =
      some (50 * 10 ^ 18,
        { tstate := { exchangeBuffer := 100 * 10 ^ 18, totalStaked := 300 * 10 ^ 18
                      exchangeRate := Q96 + Q96 / 2 }
          stakes := [(1, ⟨50 * 10 ^ 18, 0, Q96 + Q96 / 2⟩),
                     (2, ⟨200 * 10 ^ 18, 0, Q96⟩)] }) := by
  rw [C4_claim_semantics depositedSys 1 ⟨100 * 10 ^ 18, 0, Q96⟩
    (by decide) (by decide) (by decide) (by decide)]
  decide

theorem inv_unstakeOp (sys : TransmuterSys) (o : ℕ) (a : ℤ) (h : TransmuterInv sys) :
    TransmuterInv ((unstakeOp sys o a).getD sys) := by
  cases hl : alookup sys.stakes o with
  | none =>
    unfold unstakeOp
    rw [hl]
    exact h
  | some v =>
    by_cases h0 : v.stakedAmount = 0
    · rw [unstakeOp_eq_of_lookup hl a, if_pos h0]
      exact h
    rw [unstakeOp_eq_of_lookup hl a, if_neg h0]
    simp only [Option.getD_some]
    obtain ⟨hv1, hv2, hv3⟩ := h.stake_ok (o, v) (alookup_mem hl)
    have hs1 : 0 ≤ (updateStakeUnclaimed v sys.tstate).stakedAmount :=
      usu_staked_nonneg v sys.tstate hv1
    have hs1le : (updateStakeUnclaimed v sys.tstate).stakedAmount ≤ v.stakedAmount :=
      usu_staked_le v sys.tstate hv1
    have hu1 : 0 ≤ (updateStakeUnclaimed v sys.tstate).unclaimedAmount :=
      usu_unclaimed_nonneg v sys.tstate hv1 hv2
    have hi1 : (updateStakeUnclaimed v sys.tstate).lastUpdateIndex ≤ sys.tstate.exchangeRate :=
      usu_idx_le v sys.tstate hv3
    have hidx : (updateStakeUnclaimed v sys.tstate).lastUpdateIndex = sys.tstate.exchangeRate :=
      usu_idx_eq v sys.tstate h0 hv3
    have hpot : stakePotential sys.tstate.exchangeRate (updateStakeUnclaimed v sys.tstate)
        ≤ stakePotential sys.tstate.exchangeRate v :=
      usu_potential_le v sys.tstate hv1
    constructor
    · exact h.buf_nonneg
    · intro p hp
      dsimp only at hp
      rcases mem_aupsert hp with hp' | hp'
      · rw [hp']
        refine ⟨by dsimp only; omega, by dsimp only; exact hu1, by dsimp only; exact hi1⟩
      · exact h.stake_ok p hp'
    · dsimp only
      unfold sumStakedL
      rw [asum_aupsert_of_lookup _ hl]
      have := h.total_ge
      unfold sumStakedL at this
      dsimp only
      omega
    · dsimp only
      unfold potentialL
      rw [asum_aupsert_of_lookup _ hl]
      have hterm : stakePotential sys.tstate.exchangeRate
          ⟨(updateStakeUnclaimed v sys.tstate).stakedAmount -
              (if (updateStakeUnclaimed v sys.tstate).stakedAmount < a
               then (updateStakeUnclaimed v sys.tstate).stakedAmount else a),
            (updateStakeUnclaimed v sys.tstate).unclaimedAmount,
            (updateStakeUnclaimed v sys.tstate).lastUpdateIndex⟩
          = (updateStakeUnclaimed v sys.tstate).unclaimedAmount * Q96 := by
        unfold stakePotential
        dsimp only
        rw [hidx, sub_self, mul_zero, add_zero]
      have hexp : stakePotential sys.tstate.exchangeRate (updateStakeUnclaimed v sys.tstate)
          = (updateStakeUnclaimed v sys.tstate).unclaimedAmount * Q96
            + (updateStakeUnclaimed v sys.tstate).stakedAmount *
              (sys.tstate.exchangeRate - (updateStakeUnclaimed v sys.tstate).lastUpdateIndex) :=
        rfl
      have hzero : (updateStakeUnclaimed v sys.tstate).stakedAmount *
          (sys.tstate.exchangeRate - (updateStakeUnclaimed v sys.tstate).lastUpdateIndex) = 0 := by
        rw [hidx, sub_self, mul_zero]
      have hb := h.buf_potential
      unfold potentialL at hb
      linarith [hterm, hexp, hzero, hpot, hb]

theorem inv_claimOp (sys : TransmuterSys) (o : ℕ) (h : TransmuterInv sys) :
    TransmuterInv (applyTOp sys (.claim o)) := by
  show TransmuterInv (match claimOp sys o with | some (_, s) => s | none => sys)
  cases hl : alookup sys.stakes o with
  | none =>
    unfold claimOp
    rw [hl]
    exact h
  | some v =>
    obtain ⟨hv1, hv2, hv3⟩ := h.stake_ok (o, v) (alookup_mem hl)
    have hs1 : 0 ≤ (updateStakeUnclaimed v sys.tstate).stakedAmount :=
      usu_staked_nonneg v sys.tstate hv1
    have hs1le : (updateStakeUnclaimed v sys.tstate).stakedAmount ≤ v.stakedAmount :=
      usu_staked_le v sys.tstate hv1
    have hu1 : 0 ≤ (updateStakeUnclaimed v sys.tstate).unclaimedAmount :=
      usu_unclaimed_nonneg v sys.tstate hv1 hv2
    have hi1 : (updateStakeUnclaimed v sys.tstate).lastUpdateIndex ≤ sys.tstate.exchangeRate :=
      usu_idx_le v sys.tstate hv3
    have hpot : stakePotential sys.tstate.exchangeRate (updateStakeUnclaimed v sys.tstate)
        ≤ stakePotential sys.tstate.exchangeRate v :=
      usu_potential_le v sys.tstate hv1
    have hb := h.buf_potential
    have hbn := h.buf_nonneg
    have htot := h.total_ge
    rw [claimOp_eq_of_lookup hl]
    split_ifs with h0 hcB
    · constructor
      · exact hbn
      · intro p hp
        dsimp only at hp
        rcases mem_aupsert hp with hp' | hp'
        · rw [hp']
          exact ⟨hs1, hu1, hi1⟩
        · exact h.stake_ok p hp'
      · unfold sumStakedL
        rw [asum_aupsert_of_lookup _ hl]
        unfold sumStakedL at htot
        dsimp only
        omega
      · unfold potentialL
        rw [asum_aupsert_of_lookup _ hl]
        unfold potentialL at hb
        linarith [hpot, hb]
    · constructor
      · dsimp only
        omega
      · intro p hp
        dsimp only at hp
        rcases mem_aupsert hp with hp' | hp'
        · rw [hp']
          refine ⟨by dsimp only; exact hs1, by dsimp only; omega, by dsimp only; exact hi1⟩
        · exact h.stake_ok p hp'
      · dsimp only
        unfold sumStakedL
        rw [asum_aupsert_of_lookup _ hl]
        unfold sumStakedL at htot
        dsimp only
        omega
      · dsimp only
        unfold potentialL
        rw [asum_aupsert_of_lookup _ hl]
        have hsub : stakePotential sys.tstate.exchangeRate
            ⟨(updateStakeUnclaimed v sys.tstate).stakedAmount,
              (updateStakeUnclaimed v sys.tstate).unclaimedAmount - sys.tstate.exchangeBuffer,
              (updateStakeUnclaimed v sys.tstate).lastUpdateIndex⟩
            = stakePotential sys.tstate.exchangeRate (updateStakeUnclaimed v sys.tstate)
              - sys.tstate.exchangeBuffer * Q96 := by
          unfold stakePotential
          dsimp only
          ring
        have hexpand : (sys.tstate.exchangeBuffer - sys.tstate.exchangeBuffer) * Q96
            = sys.tstate.exchangeBuffer * Q96 - sys.tstate.exchangeBuffer * Q96 := by
          ring
        unfold potentialL at hb
        linarith [hsub, hexpand, hpot, hb]
    · constructor
      · dsimp only
        omega
      · intro p hp
        dsimp only at hp
        rcases mem_aupsert hp with hp' | hp'
        · rw [hp']
          refine ⟨by dsimp only; exact hs1, by dsimp only; omega, by dsimp only; exact hi1⟩
        · exact h.stake_ok p hp'
      · dsimp only
        unfold sumStakedL
        rw [asum_aupsert_of_lookup _ hl]
        unfold sumStakedL at htot
        dsimp only
        omega
      · dsimp only
        unfold potentialL
        rw [asum_aupsert_of_lookup _ hl]
        have hsub : stakePotential sys.tstate.exchangeRate
            ⟨(updateStakeUnclaimed v sys.tstate).stakedAmount,
              (updateStakeUnclaimed v sys.tstate).unclaimedAmount -
                (updateStakeUnclaimed v sys.tstate).unclaimedAmount,
              (updateStakeUnclaimed v sys.tstate).lastUpdateIndex⟩
            = stakePotential sys.tstate.exchangeRate (updateStakeUnclaimed v sys.tstate)
              - (updateStakeUnclaimed v sys.tstate).unclaimedAmount * Q96 := by
          unfold stakePotential
          dsimp only
          ring
        have hexpand : (sys.tstate.exchangeBuffer
              - (updateStakeUnclaimed v sys.tstate).unclaimedAmount) * Q96
            = sys.tstate.exchangeBuffer * Q96
              - (updateStakeUnclaimed v sys.tstate).unclaimedAmount * Q96 := by
          ring
        unfold potentialL at hb
        linarith [hsub, hexpand, hpot, hb]

theorem inv_applyTOp (sys : TransmuterSys) (op : TOp) (h : TransmuterInv sys) :
    TransmuterInv (applyTOp sys op) := by
  cases op with
  | stake o a => exact inv_stakeOp sys o a h
  | unstake o a => exact inv_unstakeOp sys o a h
  | claim o => exact inv_claimOp sys o h
  | deposit a => exact inv_depositOp sys a h

theorem inv_runTOps (sys : TransmuterSys) (ops : List TOp) (h : TransmuterInv sys) :
    TransmuterInv (runTOps sys ops) := by
  induction ops generalizing sys with
  | nil => exact h
  | cons op t ih => exact ih (applyTOp sys op) (inv_applyTOp sys op h)

/-- C2: from a freshly initialized transmuter state, every sequence of Stake,
Unstake, Claim and Deposit operations preserves `TotalStaked ≥ Σ StakedAmount`
and `ExchangeBuffer ≥ Σ claimable` (pending plus accrued-but-unreconciled
conversion) over all stakes of the synthetic token. -/
theorem C2_transmuter_invariant (ops : List TOp) :
    sumStakedL (runTOps initTransmuterSys ops).stakes
        ≤ (runTOps initTransmuterSys ops).tstate.totalStaked
    ∧ sumClaimableL (runTOps initTransmuterSys ops).tstate
          (runTOps initTransmuterSys ops).stakes
        ≤ (runTOps initTransmuterSys ops).tstate.exchangeBuffer := by
  have hinv := inv_runTOps initTransmuterSys ops inv_init
  refine ⟨hinv.total_ge, ?_⟩
  have h1 := sumClaimable_mul_le_potential (runTOps initTransmuterSys ops).tstate
    (runTOps initTransmuterSys ops).stakes hinv.stake_ok
  exact le_of_mul_le_mul_right (le_trans h1 hinv.buf_potential) Q96_pos

/-- Under the invariant no single stake's uncapped claimable exceeds the
buffer, so `GetClaimable`'s cap never binds. -/
theorem claimableOf_le_buffer {sys : TransmuterSys} (h : TransmuterInv sys)
    {k : ℕ} {st : TransmuterStake} (hl : alookup sys.stakes k = some st) :
    claimableOf sys.tstate st ≤ sys.tstate.exchangeBuffer := by
  have hmem := alookup_mem hl
  have hnn : ∀ p ∈ sys.stakes, 0 ≤ claimableOf sys.tstate p.2 := by
    intro p hp
    obtain ⟨h1, h2, h3⟩ := h.stake_ok p hp
    unfold claimableOf
    split_ifs with ha hd
    · have := Int.ediv_nonneg
        (mul_nonneg (le_of_lt ha) (le_of_lt hd)) (le_of_lt Q96_pos)
      omega
    · omega
    · omega
  have hsingle : claimableOf sys.tstate st ≤ sumClaimableL sys.tstate sys.stakes := by
    unfold sumClaimableL asum
    refine List.single_le_sum ?_ _ (List.mem_map_of_mem _ hmem)
    intro x hx
    obtain ⟨p, hp, hpx⟩ := List.mem_map.mp hx
    exact hpx ▸ hnn p hp
  have h1 := sumClaimable_mul_le_potential sys.tstate sys.stakes h.stake_ok
  have h2 := le_of_mul_le_mul_right (le_trans h1 h.buf_potential) Q96_pos
  linarith

theorem GetClaimable_eq_of_lookup {sys : TransmuterSys} {k : ℕ} {st : TransmuterStake}
    (hl : alookup sys.stakes k = some st) :
    GetClaimable sys k =
      (if sys.tstate.exchangeBuffer < claimableOf sys.tstate st
       then sys.tstate.exchangeBuffer else claimableOf sys.tstate st) := by
  unfold GetClaimable
  rw [hl]

/-- For a fully reconciled stake the uncapped claimable is just the pending
unclaimed amount. -/
theorem claimableOf_reconciled {s : TransmuterState} {st : TransmuterStake}
    (hidx : st.lastUpdateIndex = s.exchangeRate) :
    claimableOf s st = st.unclaimedAmount := by
  unfold claimableOf
  rw [hidx, sub_self]
  split_ifs with h1 h2
  · exact absurd h2 (lt_irrefl 0)
  · exact add_zero _
  · exact add_zero _

theorem prorata_upper {D s T : ℤ} (hD : 0 < D) (hs : 0 ≤ s) (hT : 0 < T) :
    s * (D * Q96 / T) / Q96 ≤ D * s / T := by
  rw [Int.le_ediv_iff_mul_le hT]
  have h3 : 0 ≤ D * Q96 / T :=
    Int.ediv_nonneg (mul_nonneg (by omega) (le_of_lt Q96_pos)) (le_of_lt hT)
  have h1 : s * (D * Q96 / T) / Q96 * Q96 ≤ s * (D * Q96 / T) := ediv_mul_le_self Q96_pos
  have h2 : D * Q96 / T * T ≤ D * Q96 := ediv_mul_le_self hT
  have hq : 0 ≤ s * (D * Q96 / T) / Q96 :=
    Int.ediv_nonneg (mul_nonneg hs h3) (le_of_lt Q96_pos)
  have step1 : s * (D * Q96 / T) / Q96 * Q96 * T ≤ s * (D * Q96 / T) * T :=
    mul_le_mul_of_nonneg_right h1 (le_of_lt hT)
  have step2 : s * (D * Q96 / T * T) ≤ s * (D * Q96) := mul_le_mul_of_nonneg_left h2 hs
  have hcomb : s * (D * Q96 / T) / Q96 * T * Q96 ≤ D * s * Q96 := by nlinarith [step1, step2]
  exact le_of_mul_le_mul_right hcomb Q96_pos

theorem prorata_lower_active {D s T : ℤ} (hD : 0 < D) (hs : 0 < s) (hT : 0 < T) :
    D * s / T - (s / Q96 + 1) ≤ s * (D * Q96 / T) / Q96 := by
  have h1 : D * Q96 < (D * Q96 / T + 1) * T := Int.lt_ediv_add_one_mul_self _ hT
  have h2 : s * (D * Q96 / T) < (s * (D * Q96 / T) / Q96 + 1) * Q96 :=
    Int.lt_ediv_add_one_mul_self _ Q96_pos
  have h3 : s < (s / Q96 + 1) * Q96 := Int.lt_ediv_add_one_mul_self _ Q96_pos
  have m1 : s * (D * Q96) < s * ((D * Q96 / T + 1) * T) := mul_lt_mul_of_pos_left h1 hs
  have m2 : s * (D * Q96 / T) * T < (s * (D * Q96 / T) / Q96 + 1) * Q96 * T :=
    mul_lt_mul_of_pos_right h2 hT
  have m3 : s * T < (s / Q96 + 1) * Q96 * T := mul_lt_mul_of_pos_right h3 hT
  have hfin : D * s * Q96
      < (s * (D * Q96 / T) / Q96 + (s / Q96) + 2) * T * Q96 := by
    nlinarith [m1, m2, m3]
  have hfin2 : D * s < (s * (D * Q96 / T) / Q96 + (s / Q96) + 2) * T :=
    lt_of_mul_lt_mul_right hfin (le_of_lt Q96_pos)
  have hlt : D * s / T < s * (D * Q96 / T) / Q96 + (s / Q96) + 2 :=
    (Int.ediv_lt_iff_lt_mul hT).mpr hfin2
  omega

theorem prorata_lower_zero {D s T : ℤ} (hD : 0 < D) (hs : 0 < s) (hT : 0 < T)
    (hz : D * Q96 / T = 0) :
    D * s / T - (s / Q96 + 1) ≤ 0 := by
  have h1 : D * Q96 < (D * Q96 / T + 1) * T := Int.lt_ediv_add_one_mul_self _ hT
  rw [hz, zero_add, one_mul] at h1
  have h3 : s < (s / Q96 + 1) * Q96 := Int.lt_ediv_add_one_mul_self _ Q96_pos
  have m1 : s * (D * Q96) < s * T := mul_lt_mul_of_pos_left h1 hs
  have m3 : s * T < (s / Q96 + 1) * Q96 * T := mul_lt_mul_of_pos_right h3 hT
  have hTQ : 0 < T * Q96 := mul_pos hT Q96_pos
  have hfin : D * s * Q96 < ((s / Q96) + 2) * T * Q96 := by
    nlinarith [m1, m3, hTQ]
  have hfin2 : D * s < ((s / Q96) + 2) * T :=
    lt_of_mul_lt_mul_right hfin (le_of_lt Q96_pos)
  have hlt : D * s / T < (s / Q96) + 2 := (Int.ediv_lt_iff_lt_mul hT).mpr hfin2
  omega

/-- C1: with all stakes reconciled, `TotalStaked = Σ sᵢ > 0` and a deposit of
`D > 0`, each staker's `GetClaimable` grows by `D·sᵢ/ΣS` up to
integer-division rounding (two nested floors: at most `sᵢ/Q96 + 1` below the
floor of the exact pro-rata share, never above it); in particular two stakers
of 100e18 and 200e18 receiving a joint deposit of 150e18 end with claimable
exactly 50e18 and 100e18. -/
theorem C1_prorata :
    (∀ (sys : TransmuterSys) (D : ℤ) (k : ℕ) (st : TransmuterStake),
        TransmuterInv sys →
        (∀ p ∈ sys.stakes, p.2.lastUpdateIndex = sys.tstate.exchangeRate) →
        sys.tstate.totalStaked = sumStakedL sys.stakes →
        0 < sys.tstate.totalStaked →
        0 < D →
        alookup sys.stakes k = some st →
        (D * st.stakedAmount / sys.tstate.totalStaked - (st.stakedAmount / Q96 + 1)
            ≤ GetClaimable (depositOp sys D) k - GetClaimable sys k
          ∧ GetClaimable (depositOp sys D) k - GetClaimable sys k
            ≤ D * st.stakedAmount / sys.tstate.totalStaked))
    ∧ GetClaimable depositedSys 1 = 50 * 10 ^ 18
    ∧ GetClaimable depositedSys 2 = 100 * 10 ^ 18 := by
  refine ⟨?_, by decide, by decide⟩
  intro sys D k st hinv hrec hT hTpos hD hl
  have hsok := hinv.stake_ok (k, st) (alookup_mem hl)
  have hs : 0 ≤ st.stakedAmount := hsok.1
  have hu : 0 ≤ st.unclaimedAmount := hsok.2.1
  have hidx : st.lastUpdateIndex = sys.tstate.exchangeRate := hrec (k, st) (alookup_mem hl)
  have hcb := claimableOf_le_buffer hinv hl
  have hub : st.unclaimedAmount ≤ sys.tstate.exchangeBuffer :=
    claimableOf_reconciled hidx ▸ hcb
  have hbefore : GetClaimable sys k = st.unclaimedAmount := by
    rw [GetClaimable_eq_of_lookup hl, claimableOf_reconciled hidx, if_neg (not_lt.mpr hub)]
  have hdep : depositOp sys D =
      { tstate := { exchangeBuffer := sys.tstate.exchangeBuffer + D
                    totalStaked := sys.tstate.totalStaked
                    exchangeRate := (sys.tstate.exchangeRate
                      + D * Q96 / sys.tstate.totalStaked) }
        stakes := sys.stakes } := by
    rw [depositOp, if_neg (show ¬ D ≤ 0 by omega), if_pos hTpos]
  have hinv' := inv_depositOp sys D hinv
  have hl2 : alookup (depositOp sys D).stakes k = some st := by
    rw [hdep]
    exact hl
  have hcb2 := claimableOf_le_buffer hinv' hl2
  have hafter : GetClaimable (depositOp sys D) k = claimableOf (depositOp sys D).tstate st := by
    rw [GetClaimable_eq_of_lookup hl2, if_neg (not_lt.mpr hcb2)]
  have hval : claimableOf (depositOp sys D).tstate st
      = st.unclaimedAmount +
        (if 0 < st.stakedAmount then
          (if 0 < D * Q96 / sys.tstate.totalStaked
           then st.stakedAmount * (D * Q96 / sys.tstate.totalStaked) / Q96 else 0)
         else 0) := by
    unfold claimableOf
    rw [hdep]
    dsimp only
    rw [hidx, add_sub_cancel_left]
  rw [hbefore, hafter, hval, add_sub_cancel_left]
  have hΔnn : 0 ≤ D * Q96 / sys.tstate.totalStaked :=
    Int.ediv_nonneg (mul_nonneg (by omega) (le_of_lt Q96_pos)) (le_of_lt hTpos)
  by_cases hspos : 0 < st.stakedAmount
  · by_cases hdpos : 0 < D * Q96 / sys.tstate.totalStaked
    · rw [if_pos hspos, if_pos hdpos]
      exact ⟨prorata_lower_active hD hspos hTpos, prorata_upper hD hs hTpos⟩
    · rw [if_pos hspos, if_neg hdpos]
      have hz : D * Q96 / sys.tstate.totalStaked = 0 := by omega
      refine ⟨prorata_lower_zero hD hspos hTpos hz, ?_⟩
      exact Int.ediv_nonneg (mul_nonneg (by omega) hs) (le_of_lt hTpos)
  · rw [if_neg hspos]
    have hs0 : st.stakedAmount = 0 := by omega
    rw [hs0, mul_zero, Int.zero_ediv, Int.zero_ediv]
    norm_num

theorem C1_witness :
    150 * 10 ^ 18 * (100 * 10 ^ 18 : ℤ) / twoStakerSys.tstate.totalStaked
        - ((100 * 10 ^ 18 : ℤ) / Q96 + 1)
      ≤ GetClaimable (depositOp twoStakerSys (150 * 10 ^ 18)) 1 - GetClaimable twoStakerSys 1
    ∧ GetClaimable (depositOp twoStakerSys (150 * 10 ^ 18)) 1 - GetClaimable twoStakerSys 1
      ≤ 150 * 10 ^ 18 * (100 * 10 ^ 18 : ℤ) / twoStakerSys.tstate.totalStaked :=
  C1_prorata.1 twoStakerSys (150 * 10 ^ 18) 1 ⟨100 * 10 ^ 18, 0, Q96⟩
    ⟨by decide, by decide, by decide, by decide⟩ (by decide) (by decide) (by decide)
    (by decide) (by decide)

theorem mem_keys_aupsert {α : Type} {k x : ℕ} {v : α} {l : List (ℕ × α)}
    (h : x ∈ (aupsert k v l).map Prod.fst) : x = k ∨ x ∈ l.map Prod.fst := by
  obtain ⟨p, hp, hpx⟩ := List.mem_map.mp h
  rcases mem_aupsert hp with h' | h'
  · left
    rw [← hpx, h']
  · right
    exact hpx ▸ List.mem_map_of_mem _ h'

theorem nodup_keys_aupsert {α : Type} (k : ℕ) (v : α) {l : List (ℕ × α)}
    (h : (l.map Prod.fst).Nodup) : ((aupsert k v l).map Prod.fst).Nodup := by
  induction l with
  | nil => simp [aupsert]
  | cons p t ih =>
    by_cases hp : p.1 = k
    · rw [aupsert, if_pos hp]
      simp only [List.map_cons, List.nodup_cons] at h ⊢
      exact ⟨hp ▸ h.1, h.2⟩
    · rw [aupsert, if_neg hp]
      simp only [List.map_cons, List.nodup_cons] at h ⊢
      refine ⟨?_, ih h.2⟩
      intro hmem
      rcases mem_keys_aupsert hmem with h' | h'
      · exact hp h'
      · exact h.1 h'

theorem alookup_of_mem_nodup {α : Type} {l : List (ℕ × α)} {c : ℕ} {x : α}
    (hmem : (c, x) ∈ l) (hnd : (l.map Prod.fst).Nodup) : alookup l c = some x := by
  induction l with
  | nil => simp at hmem
  | cons p t ih =>
    simp only [List.map_cons, List.nodup_cons] at hnd
    rcases List.mem_cons.mp hmem with h | h
    · rw [← h]
      rw [alookup, if_pos rfl]
    · rw [alookup]
      have hne : p.1 ≠ c := by
        intro he
        exact hnd.1 (he ▸ List.mem_map_of_mem Prod.fst h)
      rw [if_neg hne]
      exact ih h hnd.2

theorem netDelta_updateDelta (deltas : List (ℕ × ℤ)) (c c' : ℕ) (a : ℤ) :
    netDelta (updateDelta deltas c a) c' =
      netDelta deltas c' + (if c = c' then a else 0) := by
  unfold updateDelta netDelta
  by_cases h : c = c'
  · subst h
    rw [alookup_aupsert_self, if_pos rfl]
    simp
  · rw [alookup_aupsert_ne (fun hh => h hh.symm), if_neg h, add_zero]

theorem runPMOps_netDelta (ops : List PMOp) (f : LockFrame) (c : ℕ) :
    netDelta (runPMOps f ops).deltas c = netDelta f.deltas c + opDelta ops c := by
  induction ops generalizing f with
  | nil => simp [runPMOps, opDelta]
  | cons op t ih =>
    have hstep : runPMOps f (op :: t) = runPMOps (applyPMOp f op) t := rfl
    rw [hstep, ih]
    cases op with
    | adjust c0 a =>
      have hd : (applyPMOp f (.adjust c0 a)).deltas = updateDelta f.deltas c0 a := rfl
      rw [hd, netDelta_updateDelta]
      unfold opDelta
      simp only [List.map_cons, List.sum_cons]
      omega
    | write k v =>
      have hd : (applyPMOp f (.write k v)).deltas = f.deltas := rfl
      rw [hd]
      unfold opDelta
      simp only [List.map_cons, List.sum_cons]
      omega

theorem runPMOps_nodup (ops : List PMOp) (f : LockFrame)
    (h : (f.deltas.map Prod.fst).Nodup) :
    ((runPMOps f ops).deltas.map Prod.fst).Nodup := by
  induction ops generalizing f with
  | nil => exact h
  | cons op t ih =>
    refine ih (applyPMOp f op) ?_
    cases op with
    | adjust c a => exact nodup_keys_aupsert _ _ h
    | write k v => exact h

theorem all_zero_iff_netDelta {deltas : List (ℕ × ℤ)}
    (hnd : (deltas.map Prod.fst).Nodup) :
    (deltas.all (fun p => p.2 == 0) = true) ↔ ∀ c, netDelta deltas c = 0 := by
  rw [List.all_eq_true]
  constructor
  · intro h c
    unfold netDelta
    cases hl : alookup deltas c with
    | none => rfl
    | some v =>
      have hv := h (c, v) (alookup_mem hl)
      simp only [beq_iff_eq] at hv
      simp [hv]
  · intro h p hp
    have hp' : (p.1, p.2) ∈ deltas := by
      rw [Prod.mk.eta]
      exact hp
    have hlp : alookup deltas p.1 = some p.2 := alookup_of_mem_nodup hp' hnd
    have h2 := h p.1
    unfold netDelta at h2
    rw [hlp] at h2
    simp only [Option.getD_some] at h2
    simp [beq_iff_eq, h2]

/-- C6 (spec-modelled): a lock frame releases successfully exactly when every
currency's summed delta booked inside the frame is zero; with any nonzero
leftover the whole call aborts and the persisted store is unchanged. -/
theorem C6_lock_atomicity (store : List (ℕ × ℤ)) (ops : List PMOp) :
    ((∃ out, lockRun store ops = some out) ↔ ∀ c, opDelta ops c = 0)
    ∧ (¬ (∀ c, opDelta ops c = 0) → lockFinal store ops = store) := by
  have hnd : (((runPMOps { store := store, deltas := [] } ops).deltas).map Prod.fst).Nodup :=
    runPMOps_nodup ops _ (by simp)
  have hnet : ∀ c, netDelta (runPMOps { store := store, deltas := [] } ops).deltas c
      = opDelta ops c := by
    intro c
    rw [runPMOps_netDelta]
    simp [netDelta, alookup]
  have hiff : ((runPMOps { store := store, deltas := [] } ops).deltas.all
      (fun p => p.2 == 0) = true) ↔ ∀ c, opDelta ops c = 0 := by
    rw [all_zero_iff_netDelta hnd]
    constructor
    · intro h c
      rw [← hnet]
      exact h c
    · intro h c
      rw [hnet]
      exact h c
  constructor
  · constructor
    · rintro ⟨out, hout⟩
      simp only [lockRun] at hout
      by_cases hall : ((runPMOps { store := store, deltas := [] } ops).deltas.all
          (fun p => p.2 == 0) = true)
      · exact hiff.mp hall
      · rw [if_neg hall] at hout
        exact absurd hout (by simp)
    · intro h
      simp only [lockRun]
      rw [if_pos (hiff.mpr h)]
      exact ⟨_, rfl⟩
  · intro h
    simp only [lockFinal, lockRun]
    rw [if_neg (fun hall => h (hiff.mp hall))]
    rfl

theorem C6_witness : lockFinal [(1, 7)] [.adjust 0 5] = [(1, 7)] :=
  (C6_lock_atomicity [(1, 7)] [.adjust 0 5]).2
    (fun h => absurd (h 0) (by decide))

/-- C10: depositing a non-positive underlying amount into a registered
synthetic token's transmuter succeeds (returns nil, not an error) and leaves
the whole registry — buffer, rate, total staked and all stakes — unchanged. -/
theorem C10_deposit_nonpositive (reg : List (ℕ × TransmuterSys)) (tok : ℕ)
    (sys : TransmuterSys) (a : ℤ)
    (hreg : alookup reg tok = some sys) (ha : a ≤ 0) :
    depositTok reg tok a = some reg := by
  unfold depositTok
  rw [hreg]
  have h1 : ∀ p ∈ reg, (if p.1 = tok then (p.1, depositOp p.2 a) else p) = id p := by
    intro p _
    by_cases h : p.1 = tok
    · rw [if_pos h, depositOp, if_pos ha, Prod.mk.eta]
      rfl
    · rw [if_neg h]
      rfl
  have hmap : reg.map (fun p => if p.1 = tok then (p.1, depositOp p.2 a) else p) = reg := by
    rw [List.map_congr_left h1, List.map_id]
  exact congrArg some hmap

theorem C10_witness :
    depositTok [(5, twoStakerSys)] 5 (-(3 : ℤ)) = some [(5, twoStakerSys)] :=
  C10_deposit_nonpositive [(5, twoStakerSys)] 5 twoStakerSys (-(3 : ℤ))
    (by rw [alookup, if_pos rfl]) (by norm_num)

/-- C7 (spec-modelled): `Mint` fails with `ErrMaxLTVExceeded` exactly when the
post-harvest loan-to-value ratio `(Debt+amount)·LTVPrecision/Collateral`
exceeds `MaxLTV` as an exact ratio — equivalently
`(Debt+amount)·LTVPrecision > MaxLTV·Collateral` — leaving the account and the
synthetic's total debt unchanged; when it returns success the debt grows by
exactly `amount`.  In particular with collateral 100e18 and zero debt,
minting 90e18 succeeds with debt 90e18, and a subsequent mint of 1 fails with
`ErrMaxLTVExceeded`. -/
theorem C7_mint_ltv :
    (∀ (a : Account) (totalDebt debtCeiling yieldPerBlock currentBlock amount : ℤ),
        ((mintOp a totalDebt debtCeiling yieldPerBlock currentBlock amount).2
            = some .maxLTVExceeded
          ↔ MaxLTV * (harvestAcc a yieldPerBlock currentBlock).collateral
              < ((harvestAcc a yieldPerBlock currentBlock).debt + amount) * LTVPrecision)
        ∧ ((mintOp a totalDebt debtCeiling yieldPerBlock currentBlock amount).2
              = some .maxLTVExceeded →
            (mintOp a totalDebt debtCeiling yieldPerBlock currentBlock amount).1
              = (a, totalDebt))
        ∧ ((mintOp a totalDebt debtCeiling yieldPerBlock currentBlock amount).2 = none →
            (mintOp a totalDebt debtCeiling yieldPerBlock currentBlock amount).1.1.debt
              = (harvestAcc a yieldPerBlock currentBlock).debt + amount))
    ∧ (mintOp ⟨100 * 10 ^ 18, 0, 0⟩ 0 (10 ^ 24) 0 0 (90 * 10 ^ 18)).2 = none
    ∧ (mintOp ⟨100 * 10 ^ 18, 0, 0⟩ 0 (10 ^ 24) 0 0 (90 * 10 ^ 18)).1.1.debt = 90 * 10 ^ 18
    ∧ (mintOp ⟨100 * 10 ^ 18, 90 * 10 ^ 18, 0⟩ (90 * 10 ^ 18) (10 ^ 24) 0 0 1).2
        = some .maxLTVExceeded := by
  refine ⟨?_, by decide, by decide, by decide⟩
  intro a totalDebt debtCeiling yieldPerBlock currentBlock amount
  simp only [mintOp]
  split_ifs with h1 h2
  · exact ⟨⟨fun _ => h1, fun _ => rfl⟩, fun _ => rfl, fun hc => absurd hc (by simp)⟩
  · exact ⟨⟨fun hc => absurd hc (by simp), fun hr => absurd hr h1⟩,
      fun hc => absurd hc (by simp), fun hc => absurd hc (by simp)⟩
  · exact ⟨⟨fun hc => absurd hc (by simp), fun hr => absurd hr h1⟩,
      fun hc => absurd hc (by simp), fun _ => rfl⟩

theorem C7_witness :
    (mintOp ⟨100 * 10 ^ 18, 90 * 10 ^ 18, 0⟩ (90 * 10 ^ 18) (10 ^ 24) 0 0 1).1
      = (⟨100 * 10 ^ 18, 90 * 10 ^ 18, 0⟩, 90 * 10 ^ 18) :=
  ((C7_mint_ltv.1 ⟨100 * 10 ^ 18, 90 * 10 ^ 18, 0⟩ (90 * 10 ^ 18) (10 ^ 24) 0 0 1).2.1)
    (by decide)

theorem take_append_len {α : Type} (l1 l2 : List α) (n : ℕ) (h : l1.length = n) :
    (l1 ++ l2).take n = l1 := by
  subst h
  exact List.take_left l1 l2

theorem drop_append_len {α : Type} (l1 l2 : List α) (n : ℕ) (h : l1.length = n) :
    (l1 ++ l2).drop n = l2 := by
  subst h
  exact List.drop_left l1 l2

theorem foldl_byte_base (l : List ℕ) (a : ℕ) :
    l.foldl (fun acc b => acc * 256 + b) a
      = a * 256 ^ l.length + l.foldl (fun acc b => acc * 256 + b) 0 := by
  induction l generalizing a with
  | nil => simp
  | cons x t ih =>
    simp only [List.foldl_cons, List.length_cons]
    rw [ih (a * 256 + x), ih (0 * 256 + x)]
    ring

theorem fromBytesBE_append (l1 l2 : List ℕ) :
    fromBytesBE (l1 ++ l2) = fromBytesBE l1 * 256 ^ l2.length + fromBytesBE l2 := by
  unfold fromBytesBE
  rw [List.foldl_append, foldl_byte_base]

theorem beBytesFixed_length (n v : ℕ) : (beBytesFixed n v).length = n := by
  induction n generalizing v with
  | zero => simp [beBytesFixed]
  | succ m ih => simp [beBytesFixed, ih]

theorem fromBytesBE_beBytesFixed (n v : ℕ) (h : v < 256 ^ n) :
    fromBytesBE (beBytesFixed n v) = v := by
  induction n generalizing v with
  | zero =>
    have hv : v = 0 := by
      simpa using h
    simp [hv, beBytesFixed, fromBytesBE]
  | succ m ih =>
    have hcons : beBytesFixed (m + 1) v
        = [v / 256 ^ m] ++ beBytesFixed m (v % 256 ^ m) := rfl
    rw [hcons, fromBytesBE_append, beBytesFixed_length,
      ih (v % 256 ^ m) (Nat.mod_lt _ (Nat.pos_pow_of_pos m (by norm_num)))]
    have h1 : fromBytesBE [v / 256 ^ m] = v / 256 ^ m := by
      simp [fromBytesBE]
    rw [h1, Nat.mul_comm]
    exact Nat.div_add_mod v (256 ^ m)

theorem toBytes_length (k : PoolKey) : (PoolKey.toBytes k).length = 66 := by
  unfold PoolKey.toBytes
  simp [beBytesFixed_length]

/-- C8 (spec-modelled): the encoding of a valid sorted `PoolKey` is exactly
66 bytes and decoding it returns the original key. -/
theorem C8_poolkey_roundtrip (k : PoolKey)
    (h0 : k.currency0 < 256 ^ 20) (h1 : k.currency1 < 256 ^ 20)
    (hf : k.fee < 256 ^ 3) (ht : k.tickSpacing < 256 ^ 2) (hh : k.hooks < 256 ^ 20)
    (hsorted : k.currency0 < k.currency1) :
    (PoolKey.toBytes k).length = 66 ∧
      PoolKeyFromBytes (PoolKey.toBytes k) = some k := by
  refine ⟨toBytes_length k, ?_⟩
  have lA := beBytesFixed_length 20 k.currency0
  have lB := beBytesFixed_length 20 k.currency1
  have lF := beBytesFixed_length 3 k.fee
  have lT := beBytesFixed_length 2 k.tickSpacing
  have lH := beBytesFixed_length 20 k.hooks
  unfold PoolKeyFromBytes
  rw [if_pos (toBytes_length k)]
  have e0 : (PoolKey.toBytes k).take 20 = beBytesFixed 20 k.currency0 :=
    take_append_len _ _ _ lA
  have d0 : (PoolKey.toBytes k).drop 20
      = beBytesFixed 20 k.currency1 ++ (beBytesFixed 3 k.fee ++
          (beBytesFixed 2 k.tickSpacing ++ (beBytesFixed 20 k.hooks ++ [0]))) :=
    drop_append_len _ _ _ lA
  rw [e0, d0, take_append_len _ _ _ lB, drop_append_len _ _ _ lB,
    take_append_len _ _ _ lF, drop_append_len _ _ _ lF,
    take_append_len _ _ _ lT, drop_append_len _ _ _ lT,
    take_append_len _ _ _ lH,
    fromBytesBE_beBytesFixed 20 _ h0, fromBytesBE_beBytesFixed 20 _ h1,
    fromBytesBE_beBytesFixed 3 _ hf, fromBytesBE_beBytesFixed 2 _ ht,
    fromBytesBE_beBytesFixed 20 _ hh]

theorem C8_witness :
    (PoolKey.toBytes ⟨0, 2, 3000, 60, 7⟩).length = 66 ∧
      PoolKeyFromBytes (PoolKey.toBytes ⟨0, 2, 3000, 60, 7⟩) = some ⟨0, 2, 3000, 60, 7⟩ :=
  C8_poolkey_roundtrip ⟨0, 2, 3000, 60, 7⟩ (by decide) (by decide) (by decide)
    (by decide) (by decide) (by decide)

theorem bytesBEAux_spec (fuel : ℕ) : ∀ n : ℕ, n ≤ fuel →
    fromBytesBE (bytesBEAux fuel n) = n := by
  induction fuel with
  | zero =>
    intro n hn
    have h0 : n = 0 := by omega
    simp [h0, bytesBEAux, fromBytesBE]
  | succ f ih =>
    intro n hn
    rw [bytesBEAux]
    split_ifs with h0
    · simp [h0, fromBytesBE]
    · rw [fromBytesBE_append]
      have hrec : n / 256 ≤ f := by
        have := Nat.div_lt_self (Nat.pos_of_ne_zero h0) (by norm_num : 1 < 256)
        omega
      rw [ih (n / 256) hrec]
      have h1 : fromBytesBE [n % 256] = n % 256 := by
        simp [fromBytesBE]
      simp only [List.length_singleton, pow_one, h1]
      omega

theorem fromBytesBE_bytesBE (n : ℕ) : fromBytesBE (bytesBE n) = n :=
  bytesBEAux_spec n n (le_refl n)

theorem copy16_of_length {l : List ℕ} (h : l.length = 16) : copy16 l = l := by
  unfold copy16
  rw [h]
  simp [List.take_of_length_le (le_of_eq h)]

/-- C9 counterexample: a stake with `StakedAmount = 1` does not survive the
`saveStake`/`getStake` round trip — the left-aligned 16-byte packing turns it
into `2^120`. -/
theorem C9_counterexample :
    getStakeDB (saveStakeDB [] 7 ⟨1, 0, Q96⟩) 7 ≠ some ⟨1, 0, Q96⟩ := by
  decide

/-- C9 (amended): the `saveStake`/`getStake` round trip restores the stake
exactly when both amounts are nonnegative with minimal big-endian encodings of
exactly 16 bytes (i.e. each lies in `[2^120, 2^128)`) and the stake's
`LastUpdateIndex` at save time equals `Q96` (the value `getStake`
unconditionally restores). -/
theorem C9_roundtrip_amended (db : List (ℕ × List ℕ)) (key : ℕ) (st : TransmuterStake)
    (hs : 0 ≤ st.stakedAmount) (hu : 0 ≤ st.unclaimedAmount)
    (hls : (bytesBE st.stakedAmount.toNat).length = 16)
    (hlu : (bytesBE st.unclaimedAmount.toNat).length = 16)
    (hidx : st.lastUpdateIndex = Q96) :
    getStakeDB (saveStakeDB db key st) key = some st := by
  unfold getStakeDB saveStakeDB
  rw [alookup_aupsert_self]
  simp only [Option.getD_some]
  unfold loadStakeData saveStakeData
  rw [copy16_of_length hls, copy16_of_length hlu]
  have hne : ¬ (bytesBE st.stakedAmount.toNat ++ bytesBE st.unclaimedAmount.toNat
      = List.replicate 32 0) := by
    intro he
    have h1 : (bytesBE st.stakedAmount.toNat ++ bytesBE st.unclaimedAmount.toNat).take 16
        = List.replicate 16 0 := by
      rw [he]
      simp [List.take_replicate]
    rw [take_append_len _ _ _ hls] at h1
    have h2 : st.stakedAmount.toNat = 0 := by
      have h3 := fromBytesBE_bytesBE st.stakedAmount.toNat
      rw [h1] at h3
      have h4 : fromBytesBE (List.replicate 16 0) = 0 := by decide
      omega
    rw [h2] at hls
    simp [bytesBE, bytesBEAux] at hls
  rw [if_neg hne, take_append_len _ _ _ hls, drop_append_len _ _ _ hls,
    fromBytesBE_bytesBE, fromBytesBE_bytesBE,
    Int.toNat_of_nonneg hs, Int.toNat_of_nonneg hu, ← hidx]

theorem C9_witness :
    getStakeDB (saveStakeDB [] 3 ⟨2 ^ 120, 2 ^ 121, Q96⟩) 3
      = some ⟨2 ^ 120, 2 ^ 121, Q96⟩ :=
  C9_roundtrip_amended [] 3 ⟨2 ^ 120, 2 ^ 121, Q96⟩ (by decide) (by decide)
    (by decide) (by decide) (by decide)

theorem C3_witness :
    (updateStakeUnclaimed ⟨100, 5, Q96⟩ ⟨0, 0, Q96 + Q96 / 2⟩).unclaimedAmount
        = 5 + 100 * ((Q96 + Q96 / 2) - Q96) / Q96
      ∧ (updateStakeUnclaimed ⟨100, 5, Q96⟩ ⟨0, 0, Q96 + Q96 / 2⟩).stakedAmount
        = max 0 (100 - 100 * ((Q96 + Q96 / 2) - Q96) / Q96)
      ∧ (updateStakeUnclaimed ⟨100, 5, Q96⟩ ⟨0, 0, Q96 + Q96 / 2⟩).lastUpdateIndex
        = Q96 + Q96 / 2 :=
  C3_reconciliation ⟨100, 5, Q96⟩ ⟨0, 0, Q96 + Q96 / 2⟩ (by decide) (by decide)

end Lux
